import Mathlib

/-!
Verification of the fernet-go token codec against its specification.

Bytes are modelled as `Nat` values (kept below 256 where it matters), byte
strings as `List Nat`, and Unix times and durations as `Int` seconds — the
code only ever compares times at second granularity.  Fallible Go functions
become `Except`/`Option` values; a Go runtime panic (out-of-range slice or
index) is modelled as `Except.error ()`.

The repository contains two revisions of the codec:

* `Fernet.V1`: `gen` writes a raw binary token `version ‖ ts ‖ iv ‖ ct ‖ hmac`
  and `verify` consumes the raw bytes (base64 handled by the callers);
* `Fernet.V2`: `gen` returns `base64(hmac ‖ ts ‖ iv ‖ ct)` and `verify`
  base64-decodes internally; both check for the all-zero key.

AES and HMAC-SHA256 come from the Go standard library, not from this
repository; they are abstracted as a keyed block-cipher pair `E`/`D` on
16-byte blocks and a MAC `H : key → msg → tag`, with the properties the
library guarantees (inversion, block length, byte range) taken as hypotheses.
-/

namespace Fernet

/-- Version byte of the binary token framing (`version = 0x80`). -/
def version : Nat := 0x80

/-- Length prefix reserved for the header: `payOffset = 1 + 8 + 16`. -/
def payOffset : Nat := 25

/-- Total framing overhead: version, timestamp, IV and HMAC-SHA256 tag. -/
def overhead : Nat := 1 + 8 + 16 + 32

/-- Fixed clock-skew allowance of the verifier, in seconds. -/
def maxClockSkew : Int := 60

/-- The all-zero 32-byte key, `Key{}` in Go. -/
def zeroKey : List Nat := List.replicate 32 0

/-- Signing half of a key: `k[:len(k)/2]`. -/
def signBytes (k : List Nat) : List Nat := k.take (k.length / 2)

/-- Encryption half of a key: `k[len(k)/2:]`. -/
def cryptBytes (k : List Nat) : List Nat := k.drop (k.length / 2)

/-- Go's `subtle.ConstantTimeCompare`: 1 when the byte strings are equal
(including length), 0 otherwise. -/
def constantTimeCompare (x y : List Nat) : Nat := if x = y then 1 else 0

/-- PKCS #7 block padding from `pad` in fernet.go: extend `p` to the next
multiple of `k` (always appending at least one byte), each appended byte
holding the number of appended bytes reduced to a byte. -/
def pad (p : List Nat) (k : Nat) : List Nat :=
  let n := p.length / k * k + k
  p ++ List.replicate (n - p.length) ((n - p.length) % 256)

/-- PKCS #7 unpadding from `unpad` in fernet.go.  `c` is the last byte; the
loop checks the final `c` bytes (its `i < 0` arm fires exactly when `c`
exceeds the length) and then strips them.  Go indexes `p[len(p)-1]`, which
panics on the empty string: that is the `Except.error` case. -/
def unpad (p : List Nat) : Except Unit (Option (List Nat)) :=
  match p.getLast? with
  | none => .error ()
  | some c =>
    if p.length < c then .ok none
    else if (p.drop (p.length - c)).all (fun b => b = c) then
      .ok (some (p.take (p.length - c)))
    else .ok none

end Fernet

namespace B64

/-- Value of one character of the URL-safe base64 alphabet (`A-Z a-z 0-9 - _`),
or `none` when the character is not in the alphabet. -/
def b64val (c : Nat) : Option Nat :=
  if 65 ≤ c ∧ c ≤ 90 then some (c - 65)
  else if 97 ≤ c ∧ c ≤ 122 then some (c - 71)
  else if 48 ≤ c ∧ c ≤ 57 then some (c + 4)
  else if c = 45 then some 62
  else if c = 95 then some 63
  else none

/-- Character of the URL-safe base64 alphabet for a 6-bit value. -/
def b64chr (v : Nat) : Nat :=
  if v ≤ 25 then v + 65
  else if v ≤ 51 then v + 71
  else if v ≤ 61 then v - 4
  else if v = 62 then 45
  else 95

/-- Padded URL-safe base64 encoding, the `encoding = base64.URLEncoding` used
throughout the package: groups of three bytes become four characters, a final
group of one or two bytes is completed with `=` padding. -/
def b64enc : List Nat → List Nat
  | b0 :: b1 :: b2 :: rest =>
    b64chr (b0 / 4) :: b64chr (b0 % 4 * 16 + b1 / 16) ::
      b64chr (b1 % 16 * 4 + b2 / 64) :: b64chr (b2 % 64) :: b64enc rest
  | [b0, b1] => [b64chr (b0 / 4), b64chr (b0 % 4 * 16 + b1 / 16), b64chr (b1 % 16 * 4), 61]
  | [b0] => [b64chr (b0 / 4), b64chr (b0 % 4 * 16), 61, 61]
  | [] => []

/-- Padded URL-safe base64 decoding with Go's `base64.URLEncoding` semantics:
the input is consumed in four-character quanta, `=` may appear only as the
final one or two characters of the last quantum, and any other character must
be in the alphabet.  (The newline skipping of Go's decoder is not modelled;
no input handled by this package contains newlines.) -/
def b64dec : List Nat → Option (List Nat)
  | [] => some []
  | c0 :: c1 :: c2 :: c3 :: rest =>
    match b64val c0, b64val c1 with
    | some v0, some v1 =>
      if c2 = 61 then
        if c3 = 61 ∧ rest = [] then some [v0 * 4 + v1 / 16] else none
      else
        match b64val c2 with
        | some v2 =>
          if c3 = 61 then
            if rest = [] then some [v0 * 4 + v1 / 16, v1 % 16 * 16 + v2 / 4] else none
          else
            match b64val c3 with
            | some v3 =>
              (b64dec rest).map
                (fun bs => (v0 * 4 + v1 / 16) :: (v1 % 16 * 16 + v2 / 4) :: (v2 % 4 * 64 + v3) :: bs)
            | none => none
        | none => none
    | _, _ => none
  | _ => none

end B64

namespace Fernet

/-- Big-endian 8-byte encoding of a `uint64`, `binary.BigEndian.PutUint64`. -/
def beBytes8 (n : Nat) : List Nat :=
  [n / 2 ^ 56 % 256, n / 2 ^ 48 % 256, n / 2 ^ 40 % 256, n / 2 ^ 32 % 256,
   n / 2 ^ 24 % 256, n / 2 ^ 16 % 256, n / 2 ^ 8 % 256, n % 256]

/-- Big-endian read of the first eight bytes, `binary.BigEndian.Uint64`.  The
callers in `verify` only reach it with at least eight bytes available (token
length is at least 32 there), so the short case is left at 0. -/
def beUint64 : List Nat → Nat
  | b0 :: b1 :: b2 :: b3 :: b4 :: b5 :: b6 :: b7 :: _ =>
    ((((((b0 * 256 + b1) * 256 + b2) * 256 + b3) * 256 + b4) * 256 + b5) * 256 + b6) * 256 + b7
  | _ => 0

/-- Go conversion `uint64(t)` of an `int64`: reduction modulo `2^64`. -/
def uint64ofInt64 (t : Int) : Nat := (t % (2 : Int) ^ 64).toNat

/-- Go conversion `int64(n)` of a `uint64`: two's-complement reinterpretation. -/
def int64ofUint64 (n : Nat) : Int := if n < 2 ^ 63 then (n : Int) else (n : Int) - 2 ^ 64

/-- Byte-wise XOR of two buffers, as CBC chaining uses it. -/
def xorBytes (a b : List Nat) : List Nat := List.zipWith (fun x y => x ^^^ y) a b

/-- Fuel-driven worker for `toBlocks`; the fuel is an upper bound on the
number of blocks, so that the recursion is structural and computes. -/
def toBlocksAux : Nat → List Nat → List (List Nat)
  | _, [] => []
  | 0, _ => []
  | fuel + 1, p => p.take 16 :: toBlocksAux fuel (p.drop 16)

/-- Split a buffer into its 16-byte blocks, as `CryptBlocks` walks it. -/
def toBlocks (p : List Nat) : List (List Nat) := toBlocksAux p.length p

/-- CBC encryption over a block list with block cipher `E` and running IV. -/
def cbcEncBlocks (E : List Nat → List Nat) : List Nat → List (List Nat) → List (List Nat)
  | _, [] => []
  | iv, b :: bs => let c := E (xorBytes iv b); c :: cbcEncBlocks E c bs

/-- CBC decryption over a block list with block cipher inverse `D`. -/
def cbcDecBlocks (D : List Nat → List Nat) : List Nat → List (List Nat) → List (List Nat)
  | _, [] => []
  | iv, c :: cs => xorBytes iv (D c) :: cbcDecBlocks D c cs

/-- CBC encryption of a byte buffer, `cipher.NewCBCEncrypter(bc, iv).CryptBlocks`. -/
def cbcEncrypt (E : List Nat → List Nat) (iv p : List Nat) : List Nat :=
  (cbcEncBlocks E iv (toBlocks p)).flatten

/-- CBC decryption of a byte buffer, `cipher.NewCBCDecrypter(bc, iv).CryptBlocks`. -/
def cbcDecrypt (D : List Nat → List Nat) (iv p : List Nat) : List Nat :=
  (cbcDecBlocks D iv (toBlocks p)).flatten

end Fernet

namespace Fernet.V1

/-!
First revision of fernet.go: `gen` assembles the raw binary token
`version ‖ ts ‖ iv ‖ ciphertext ‖ hmac` and `verify` consumes raw bytes.
`E`/`D` are the keyed AES block cipher obtained from `aes.NewCipher` and `H`
the keyed `HMAC-SHA256` from `genhmac`, abstracted as parameters.
-/

/-- Token generation `gen(tok, msg, iv, ts, k)` from fernet.go, modelled as the
token it writes: version byte, 8-byte big-endian timestamp, IV, CBC-encrypted
padded message, and the HMAC of everything before the tag. -/
def gen (E H : List Nat → List Nat → List Nat) (msg iv : List Nat) (ts : Int)
    (k : List Nat) : List Nat :=
  let header := version :: beBytes8 (uint64ofInt64 ts) ++ iv
  let c := cbcEncrypt (E (cryptBytes k)) iv (pad msg 16)
  header ++ c ++ H (signBytes k) (header ++ c)

/-- Token verification `verify(msg, tok, ttl, now, k)` from fernet.go (first
revision), on the raw decoded token.  The two `Except.error` arms are the Go
slice panics: `tok[:len(tok)-sha256.Size]` when the token is shorter than the
tag, and `tok[payOffset:len(tok)-sha256.Size]` when it is shorter than the
framing overhead of 57 bytes. -/
def verify (D H : List Nat → List Nat → List Nat) (tok : List Nat) (ttl now : Int)
    (k : List Nat) : Except Unit (Option (List Nat)) :=
  if tok.length < 1 ∨ tok.getD 0 0 ≠ version then .ok none
  else if tok.length < 32 then .error ()
  else if constantTimeCompare (tok.drop (tok.length - 32))
      (H (signBytes k) (tok.take (tok.length - 32))) ≠ 1 then .ok none
  else
    let ts := int64ofUint64 (beUint64 (tok.drop 1))
    if now > ts + ttl ∨ ts > now + maxClockSkew then .ok none
    else if tok.length < 57 then .error ()
    else
      let pay := (tok.drop payOffset).take (tok.length - 57)
      if pay.length % 16 ≠ 0 then .ok none
      else unpad (cbcDecrypt (D (cryptBytes k)) ((tok.drop 9).take 16) pay)

end Fernet.V1

namespace Fernet.V2

/-!
Second revision of fernet.go: the token is `base64(hmac ‖ ts ‖ iv ‖ ct)` and
both `gen` and `verify` reject the all-zero key up front.
-/

/-- Body assembled by the second-revision `gen`: the 8-byte big-endian
timestamp, the IV and the CBC ciphertext, with the HMAC over those bytes
prepended. -/
def genRaw (E H : List Nat → List Nat → List Nat) (src iv : List Nat) (ts : Int)
    (k : List Nat) : List Nat :=
  let msg := beBytes8 (uint64ofInt64 ts) ++ iv ++ cbcEncrypt (E (cryptBytes k)) iv (pad src 16)
  H (signBytes k) msg ++ msg

/-- `gen(src, iv, ts, k)` from the second revision of fernet.go: reject the
all-zero key with an error, otherwise return the base64 text of the raw
token. -/
def gen (E H : List Nat → List Nat → List Nat) (src iv : List Nat) (ts : Int)
    (k : List Nat) : Except String (List Nat) :=
  if k = zeroKey then .error "fernet: zero key"
  else .ok (B64.b64enc (genRaw E H src iv ts k))

/-- `verify(p, ttl, now, k)` from the second revision of fernet.go.  A base64
error leaves `tok` nil, which then fails the 56-byte `binary.Read` of the
HMAC/timestamp/IV header exactly like a short decode does.  The tail `unpad`
inherits the panic of `unpad` on an empty buffer. -/
def verify (D H : List Nat → List Nat → List Nat) (p : List Nat) (ttl now : Int)
    (k : List Nat) : Except Unit (Option (List Nat)) :=
  if k = zeroKey then .ok none
  else
    let tok := (B64.b64dec p).getD []
    if tok.length < 56 then .ok none
    else if constantTimeCompare (tok.take 32) (H (signBytes k) (tok.drop 32)) ≠ 1 then .ok none
    else
      let ts := int64ofUint64 (beUint64 (tok.drop 32))
      if now > ts + ttl ∨ ts > now + maxClockSkew then .ok none
      else
        let msg := tok.drop 56
        if msg.length % 16 ≠ 0 then .ok none
        else unpad (cbcDecrypt (D (cryptBytes k)) ((tok.drop 40).take 16) msg)

end Fernet.V2

namespace Fernet.Keys

/-- Failure cases of `DecodeKey`: `keyLenError(len(s))` and the base64
`CorruptInputError` passed through. -/
inductive KeyError
  | keyLen (n : Nat)
  | base64
deriving DecidableEq

/-- `Key.Encode`: the base64 text of the raw 32 key bytes. -/
def encode (k : List Nat) : List Nat := B64.b64enc k

/-- `DecodeKey(s)` from key.go: the decode buffer is `[(32+2)/3*3]byte`, i.e.
33 bytes, and the text must satisfy `encoding.DecodedLen(len(s)) == 33`
(key-length error otherwise); then the base64 decode must succeed (its error
is returned) and must have written exactly 32 bytes (key-length error
otherwise). -/
def DecodeKey (s : List Nat) : Except KeyError (List Nat) :=
  if s.length / 4 * 3 ≠ 33 then .error (.keyLen s.length)
  else
    match B64.b64dec s with
    | none => .error .base64
    | some b => if b.length ≠ 32 then .error (.keyLen s.length) else .ok b

/-- `Key.Generate(msg)` from key.go: reject the all-zero key with the
configuration error `"zero key"`, otherwise produce the token for a fresh IV
(the IV drawn from `crypto/rand` is a parameter here). -/
def keyGenerate (E H : List Nat → List Nat → List Nat) (k msg iv : List Nat)
    (ts : Int) : Except String (List Nat) :=
  if k = zeroKey then .error "zero key"
  else .ok (B64.b64enc (V2.genRaw E H msg iv ts k))

end Fernet.Keys

namespace Fernet.Legacy

/-- Value of one hexadecimal digit character, `fromHexChar` in encoding/hex. -/
def hexVal (c : Nat) : Option Nat :=
  if 48 ≤ c ∧ c ≤ 57 then some (c - 48)
  else if 97 ≤ c ∧ c ≤ 102 then some (c - 87)
  else if 65 ≤ c ∧ c ≤ 70 then some (c - 55)
  else none

/-- Hex decoding of an even-length string of hex digits, `none` on an odd
length or a non-digit, as `hex.Decode` reports those. -/
def hexDecode : List Nat → Option (List Nat)
  | [] => some []
  | c0 :: c1 :: rest =>
    match hexVal c0, hexVal c1 with
    | some a, some b => (hexDecode rest).map (fun bs => (a * 16 + b) :: bs)
    | _, _ => none
  | _ => none

/-- Index of the last `'|'` byte, `bytes.LastIndex(tok, pipe)` (`none` for
Go's -1). -/
def lastPipe (tok : List Nat) : Option Nat :=
  (List.range tok.length).reverse.find? (fun i => tok.getD i 0 = 124)

/-- `jsonKeys(k)`: both key halves are read off the base64 text of the key —
the first half of the text signs, the next 16 characters decrypt. -/
def jsonKeys (k : List Nat) : List Nat × List Nat :=
  let s := B64.b64enc k
  let i := s.length / 2
  (s.take i, (s.drop i).take 16)

/-- Body of `jsonVerify` after the signing and encryption material has been
derived; `sk` and `ck` are the two components of `jsonKeys`.  `P` models the
external `json.Unmarshal` extraction of the `issued_at` timestamp.  The first
`Except.error` arm is `hex.Decode` overrunning its 32-byte destination (an
even-length `machex` longer than 64 characters whose first 33 byte pairs are
all valid hex); the final one is the `unpad` panic on an empty buffer.  (The
analogous overrun of the fixed `ivCap = 18`-byte IV buffer by an oversized
base64 IV field is not modelled; that input class is instead rejected by the
`len(iv) != 16` check, and no property below depends on it.)  Note
the MAC recomputation `H fields sk`: the token fields are the HMAC key and
the derived signing material is the HMAC message (`genhmac(signingKey,
fields)` with `genhmac(p, k)` hashing message `p` under key `k`). -/
def jsonVerifyDerived (D : List Nat → List Nat → List Nat)
    (H : List Nat → List Nat → List Nat) (P : List Nat → Option Int)
    (sk ck : List Nat) (tok : List Nat) (ttl now : Int) :
    Except Unit (Option (List Nat)) :=
  match lastPipe tok with
  | none => .ok none
  | some i =>
    let fields := tok.take i
    let machex := tok.drop (i + 1)
    if machex.length % 2 = 1 then .ok none
    else if 64 < machex.length ∧ (machex.take 66).all (fun c => hexVal c ≠ none) then
      .error ()
    else
      match hexDecode machex with
      | none => .ok none
      | some hm =>
        if hm.length ≠ 32 then .ok none
        else if constantTimeCompare hm (H fields sk) ≠ 1 then .ok none
        else
          match fields.splitOn 124 with
          | [pb64, ivb64] =>
            match B64.b64dec pb64, B64.b64dec ivb64 with
            | some p, some iv =>
              if p.length % 16 ≠ 0 ∨ iv.length ≠ 16 then .ok none
              else
                match unpad (cbcDecrypt (D ck) iv p) with
                | .error e => .error e
                | .ok none => .ok none
                | .ok (some msg) =>
                  match P msg with
                  | none => .ok none
                  | some its => if now > its + ttl then .ok none else .ok (some msg)
            | _, _ => .ok none
          | _ => .ok none

/-- `jsonVerify(tok, ttl, now, k)` from the legacy JSON compatibility file:
reject the all-zero key, then run the body on the material derived by
`jsonKeys`. -/
def jsonVerify (D : List Nat → List Nat → List Nat)
    (H : List Nat → List Nat → List Nat) (P : List Nat → Option Int)
    (tok : List Nat) (ttl now : Int) (k : List Nat) :
    Except Unit (Option (List Nat)) :=
  if k = zeroKey then .ok none
  else jsonVerifyDerived D H P (jsonKeys k).1 (jsonKeys k).2 tok ttl now

end Fernet.Legacy

namespace Fernet.Keys

/-- `Key.Verify(tok, ttl)` from key.go: dispatch on the presence of the
literal `'|'` byte — a token without one goes to the legacy JSON verifier,
a token with one goes to the modern binary verifier. -/
def KeyVerify (D H : List Nat → List Nat → List Nat) (P : List Nat → Option Int)
    (tok : List Nat) (ttl now : Int) (k : List Nat) :
    Except Unit (Option (List Nat)) :=
  if ¬ (124 ∈ tok) then Legacy.jsonVerify D H P tok ttl now k
  else V2.verify D H tok ttl now k

end Fernet.Keys

namespace Fernet

/-- Modelled from the spec: the package-level key-set verifier
(`VerifyAndDecrypt` over an ordered `[]*Key`, exercised by the example test
but not present among the sources).  It "tries `Codec.verify` with each key
in the given order, returning the first non-nil result; returns nil if all
fail". -/
def verifyWithKeys (D H : List Nat → List Nat → List Nat) (tok : List Nat)
    (ttl now : Int) : List (List Nat) → Except Unit (Option (List Nat))
  | [] => .ok none
  | k :: ks =>
    match V2.verify D H tok ttl now k with
    | .error e => .error e
    | .ok (some m) => .ok (some m)
    | .ok none => verifyWithKeys D H tok ttl now ks

end Fernet

-- ============================================================
-- Theorems
-- ============================================================

namespace Fernet

theorem beUint64_beBytes8_append (n : Nat) (h : n < 2 ^ 64) (rest : List Nat) :
    beUint64 (beBytes8 n ++ rest) = n := by
  simp only [beBytes8, List.cons_append, List.nil_append, beUint64]
  omega

theorem int64_uint64_roundtrip (t : Int) (h1 : -(2 ^ 63) ≤ t) (h2 : t < 2 ^ 63) :
    int64ofUint64 (uint64ofInt64 t) = t := by
  simp only [uint64ofInt64, int64ofUint64]
  split <;> omega

theorem uint64ofInt64_lt (t : Int) : uint64ofInt64 t < 2 ^ 64 := by
  simp only [uint64ofInt64]
  omega

theorem xorBytes_cancel (a b : List Nat) (h : a.length = b.length) :
    xorBytes a (xorBytes a b) = b := by
  induction a generalizing b with
  | nil => cases b <;> simp_all [xorBytes]
  | cons x xs ih =>
    cases b with
    | nil => simp at h
    | cons y ys =>
      simp only [xorBytes, List.zipWith] at *
      rw [← Nat.xor_assoc, Nat.xor_self, Nat.zero_xor, ih ys (by simpa using h)]

theorem length_xorBytes (a b : List Nat) : (xorBytes a b).length = min a.length b.length := by
  simp [xorBytes]

theorem xorBytes_bytes_lt (a b : List Nat) (ha : ∀ y ∈ a, y < 256)
    (hb : ∀ y ∈ b, y < 256) : ∀ x ∈ xorBytes a b, x < 256 := by
  induction a generalizing b with
  | nil => intro x hx; simp [xorBytes] at hx
  | cons a0 as ih =>
    intro x hx
    cases b with
    | nil => simp [xorBytes] at hx
    | cons b0 bs =>
      simp only [xorBytes, List.zipWith, List.mem_cons] at hx
      rcases hx with hx | hx
      · subst hx
        have h1 : a0 < 256 := ha a0 (List.mem_cons_self _ _)
        have h2 : b0 < 256 := hb b0 (List.mem_cons_self _ _)
        have h8 : (256 : Nat) = 2 ^ 8 := by norm_num
        rw [h8] at *
        exact Nat.xor_lt_two_pow h1 h2
      · exact ih bs (fun y hy => ha y (List.mem_cons_of_mem _ hy))
          (fun y hy => hb y (List.mem_cons_of_mem _ hy)) x hx

theorem pad_eq (m : List Nat) :
    Fernet.pad m 16 = m ++ List.replicate (16 - m.length % 16) (16 - m.length % 16) := by
  have h1 : m.length / 16 * 16 + 16 - m.length = 16 - m.length % 16 := by omega
  have h2 : (16 - m.length % 16) % 256 = 16 - m.length % 16 := by omega
  simp only [Fernet.pad, h1, h2]

theorem pad_length (m : List Nat) :
    (Fernet.pad m 16).length = m.length + (16 - m.length % 16) := by
  rw [pad_eq]; simp

theorem unpad_pad (m : List Nat) : Fernet.unpad (Fernet.pad m 16) = .ok (some m) := by
  rw [pad_eq]
  set c := 16 - m.length % 16 with hc
  have hc1 : 1 ≤ c := by omega
  have hc16 : c ≤ 16 := by omega
  have hlen : (m ++ List.replicate c c).length = m.length + c := by simp
  have hlast : (m ++ List.replicate c c).getLast? = some c := by
    obtain ⟨n, hn⟩ : ∃ n, c = n + 1 := ⟨c - 1, by omega⟩
    rw [hn, List.replicate_succ', ← List.append_assoc, List.getLast?_concat]
  simp only [Fernet.unpad, hlast, hlen]
  rw [if_neg (by omega)]
  have hdrop : (m ++ List.replicate c c).drop (m.length + c - c) = List.replicate c c := by
    have : m.length + c - c = m.length := by omega
    rw [this, List.drop_left]
  have htake : (m ++ List.replicate c c).take (m.length + c - c) = m := by
    have : m.length + c - c = m.length := by omega
    rw [this, List.take_left]
  rw [hdrop, htake, if_pos]
  simp

theorem toBlocksAux_ge : ∀ (f1 : Nat), ∀ (f2 : Nat) (p : List Nat), p.length ≤ f1 → p.length ≤ f2 →
    toBlocksAux f1 p = toBlocksAux f2 p := by
  intro f1
  induction f1 with
  | zero =>
    intro f2 p hp1 _
    have : p = [] := by
      cases p with
      | nil => rfl
      | cons a l => simp at hp1
    subst this
    cases f2 <;> rfl
  | succ f1 ih =>
    intro f2 p hp1 hp2
    cases p with
    | nil => cases f2 <;> rfl
    | cons a l =>
      cases f2 with
      | zero => simp at hp2
      | succ f2 =>
        show (a :: l).take 16 :: toBlocksAux f1 ((a :: l).drop 16)
          = (a :: l).take 16 :: toBlocksAux f2 ((a :: l).drop 16)
        have hd : ((a :: l).drop 16).length ≤ f1 := by
          simp only [List.length_drop, List.length_cons] at *
          omega
        have hd2 : ((a :: l).drop 16).length ≤ f2 := by
          simp only [List.length_drop, List.length_cons] at *
          omega
        rw [ih f2 _ hd hd2]

theorem toBlocksAux_fuel (fuel : Nat) (p : List Nat) (h : p.length ≤ fuel) :
    toBlocksAux fuel p = toBlocks p :=
  toBlocksAux_ge fuel p.length p h le_rfl

theorem toBlocks_eq (p : List Nat) :
    toBlocks p = if p = [] then [] else p.take 16 :: toBlocks (p.drop 16) := by
  cases p with
  | nil => rfl
  | cons a l =>
    rw [if_neg (by simp)]
    show (a :: l).take 16 :: toBlocksAux l.length ((a :: l).drop 16) = _
    rw [toBlocksAux_fuel l.length _ (by simp [List.length_drop])]

theorem toBlocks_spec : ∀ (n : Nat) (p : List Nat), p.length ≤ n → p.length % 16 = 0 →
    (∀ b ∈ toBlocks p, b.length = 16) ∧ (toBlocks p).flatten = p := by
  intro n
  induction n with
  | zero =>
    intro p hp _
    have : p = [] := by
      cases p with
      | nil => rfl
      | cons a l => simp at hp
    subst this
    rw [toBlocks_eq]
    simp
  | succ n ih =>
    intro p hp h
    by_cases hpe : p = []
    · subst hpe; rw [toBlocks_eq]; simp
    · have hne : p.length ≠ 0 := by simpa [← List.length_eq_zero] using hpe
      have h16 : 16 ≤ p.length := by omega
      have hd : (p.drop 16).length % 16 = 0 := by simp [List.length_drop]; omega
      have hdl : (p.drop 16).length ≤ n := by simp [List.length_drop]; omega
      obtain ⟨ihb, ihf⟩ := ih (p.drop 16) hdl hd
      rw [toBlocks_eq, if_neg hpe]
      refine ⟨?_, ?_⟩
      · intro b hb
        rcases List.mem_cons.mp hb with hb | hb
        · subst hb; simp [List.length_take]; omega
        · exact ihb b hb
      · simp only [List.flatten_cons, ihf, List.take_append_drop]

theorem toBlocks_of_blocks : ∀ (bl : List (List Nat)), (∀ b ∈ bl, b.length = 16) →
    toBlocks bl.flatten = bl := by
  intro bl
  induction bl with
  | nil => intro _; rw [toBlocks_eq]; simp
  | cons b bs ih =>
    intro h
    have hb : b.length = 16 := h b (List.mem_cons_self b bs)
    have hne : (b :: bs).flatten ≠ [] := by
      intro hc
      have := congrArg List.length hc
      simp [hb] at this
    rw [toBlocks_eq, if_neg hne]
    simp only [List.flatten_cons]
    rw [List.take_left' hb, List.drop_left' hb, ih (fun x hx => h x (List.mem_cons_of_mem b hx))]

theorem flatten_length_of_blocks (bl : List (List Nat)) (h : ∀ b ∈ bl, b.length = 16) :
    bl.flatten.length = 16 * bl.length := by
  induction bl with
  | nil => simp
  | cons b bs ih =>
    simp only [List.flatten_cons, List.length_append, List.length_cons,
      h b (List.mem_cons_self b bs), ih (fun x hx => h x (List.mem_cons_of_mem b hx))]
    ring

theorem cbcEncBlocks_blocks (E : List Nat → List Nat)
    (hElen : ∀ b, b.length = 16 → (E b).length = 16) :
    ∀ (bs : List (List Nat)) (iv : List Nat), iv.length = 16 → (∀ b ∈ bs, b.length = 16) →
      ∀ c ∈ cbcEncBlocks E iv bs, c.length = 16 := by
  intro bs
  induction bs with
  | nil => intro iv _ _ c hc; simp [cbcEncBlocks] at hc
  | cons b bs ih =>
    intro iv hiv hbs c hc
    have hb : b.length = 16 := hbs b (List.mem_cons_self b bs)
    have hxl : (xorBytes iv b).length = 16 := by rw [length_xorBytes, hiv, hb]; rfl
    have hEl : (E (xorBytes iv b)).length = 16 := hElen _ hxl
    simp only [cbcEncBlocks] at hc
    rcases List.mem_cons.mp hc with hc | hc
    · subst hc; exact hEl
    · exact ih (E (xorBytes iv b)) hEl (fun x hx => hbs x (List.mem_cons_of_mem b hx)) c hc

theorem cbcEncBlocks_length (E : List Nat → List Nat) :
    ∀ (bs : List (List Nat)) (iv : List Nat), (cbcEncBlocks E iv bs).length = bs.length := by
  intro bs
  induction bs with
  | nil => intro iv; simp [cbcEncBlocks]
  | cons b bs ih => intro iv; simp [cbcEncBlocks, ih]

theorem cbcDecBlocks_cbcEncBlocks (E D : List Nat → List Nat)
    (hED : ∀ b, b.length = 16 → (∀ x ∈ b, x < 256) → D (E b) = b)
    (hElen : ∀ b, b.length = 16 → (E b).length = 16)
    (hE256 : ∀ b, b.length = 16 → ∀ x ∈ E b, x < 256) :
    ∀ (bs : List (List Nat)) (iv : List Nat), iv.length = 16 → (∀ x ∈ iv, x < 256) →
      (∀ b ∈ bs, b.length = 16) → (∀ b ∈ bs, ∀ x ∈ b, x < 256) →
      cbcDecBlocks D iv (cbcEncBlocks E iv bs) = bs := by
  intro bs
  induction bs with
  | nil => intro iv _ _ _ _; simp [cbcEncBlocks, cbcDecBlocks]
  | cons b bs ih =>
    intro iv hiv hiv256 hbs hbs256
    have hb : b.length = 16 := hbs b (List.mem_cons_self b bs)
    have hb256 : ∀ x ∈ b, x < 256 := hbs256 b (List.mem_cons_self b bs)
    have hxl : (xorBytes iv b).length = 16 := by rw [length_xorBytes, hiv, hb]; rfl
    have hx256 : ∀ x ∈ xorBytes iv b, x < 256 := xorBytes_bytes_lt iv b hiv256 hb256
    have hEl : (E (xorBytes iv b)).length = 16 := hElen _ hxl
    simp only [cbcEncBlocks, cbcDecBlocks]
    rw [hED _ hxl hx256, xorBytes_cancel iv b (by omega),
      ih (E (xorBytes iv b)) hEl (hE256 _ hxl)
        (fun x hx => hbs x (List.mem_cons_of_mem b hx))
        (fun x hx => hbs256 x (List.mem_cons_of_mem b hx))]

theorem toBlocks_mem_subset (p : List Nat) : ∀ b ∈ toBlocks p, ∀ x ∈ b, x ∈ p := by
  have main : ∀ (n : Nat) (q : List Nat), q.length ≤ n → ∀ b ∈ toBlocks q, ∀ x ∈ b, x ∈ q := by
    intro n
    induction n with
    | zero =>
      intro q hq b hb
      have : q = [] := by
        cases q with
        | nil => rfl
        | cons a l => simp at hq
      subst this
      rw [toBlocks_eq] at hb
      simp at hb
    | succ n ih =>
      intro q hq b hb x hx
      by_cases hqe : q = []
      · subst hqe; rw [toBlocks_eq] at hb; simp at hb
      · rw [toBlocks_eq, if_neg hqe] at hb
        rcases List.mem_cons.mp hb with hb | hb
        · subst hb; exact List.mem_of_mem_take hx
        · have hql : q.length ≠ 0 := by simpa [← List.length_eq_zero] using hqe
          have : (q.drop 16).length ≤ n := by simp [List.length_drop]; omega
          exact List.mem_of_mem_drop (ih (q.drop 16) this b hb x hx)
  exact main p.length p le_rfl

theorem pad_bytes_lt (m : List Nat) (hm : ∀ x ∈ m, x < 256) :
    ∀ x ∈ pad m 16, x < 256 := by
  rw [pad_eq]
  intro x hx
  rcases List.mem_append.mp hx with hx | hx
  · exact hm x hx
  · rw [List.eq_of_mem_replicate hx]; omega

theorem cbcDecrypt_cbcEncrypt (E D : List Nat → List Nat)
    (hED : ∀ b, b.length = 16 → (∀ x ∈ b, x < 256) → D (E b) = b)
    (hElen : ∀ b, b.length = 16 → (E b).length = 16)
    (hE256 : ∀ b, b.length = 16 → ∀ x ∈ E b, x < 256)
    (iv p : List Nat) (hiv : iv.length = 16) (hiv256 : ∀ x ∈ iv, x < 256)
    (hp : p.length % 16 = 0) (hp256 : ∀ x ∈ p, x < 256) :
    cbcDecrypt D iv (cbcEncrypt E iv p) = p := by
  obtain ⟨hb, hf⟩ := toBlocks_spec p.length p le_rfl hp
  have hb256 : ∀ b ∈ toBlocks p, ∀ x ∈ b, x < 256 :=
    fun b hbm x hx => hp256 x (toBlocks_mem_subset p b hbm x hx)
  unfold cbcEncrypt cbcDecrypt
  rw [toBlocks_of_blocks _ (cbcEncBlocks_blocks E hElen (toBlocks p) iv hiv hb),
    cbcDecBlocks_cbcEncBlocks E D hED hElen hE256 (toBlocks p) iv hiv hiv256 hb hb256, hf]

theorem cbcEncrypt_length (E : List Nat → List Nat)
    (hElen : ∀ b, b.length = 16 → (E b).length = 16)
    (iv p : List Nat) (hiv : iv.length = 16) (hp : p.length % 16 = 0) :
    (cbcEncrypt E iv p).length = p.length := by
  obtain ⟨hb, hf⟩ := toBlocks_spec p.length p le_rfl hp
  unfold cbcEncrypt
  rw [flatten_length_of_blocks _ (cbcEncBlocks_blocks E hElen (toBlocks p) iv hiv hb),
    cbcEncBlocks_length]
  conv_rhs => rw [← hf]
  rw [flatten_length_of_blocks _ hb]


end Fernet

namespace Fernet.V1

/-- Behaviour of `verify` on any token produced by `gen` with the same key:
the message comes back exactly, unless the TTL or clock-skew window fails. -/
theorem verify_gen (E D H : List Nat → List Nat → List Nat)
    (hED : ∀ ck b, b.length = 16 → (∀ x ∈ b, x < 256) → D ck (E ck b) = b)
    (hElen : ∀ ck b, b.length = 16 → (E ck b).length = 16)
    (hE256 : ∀ ck b, b.length = 16 → ∀ x ∈ E ck b, x < 256)
    (hH32 : ∀ kk m, (H kk m).length = 32)
    (msg : List Nat) (hmsg256 : ∀ x ∈ msg, x < 256)
    (iv : List Nat) (hiv : iv.length = 16) (hiv256 : ∀ x ∈ iv, x < 256)
    (ts : Int) (hts1 : -(2 ^ 63) ≤ ts) (hts2 : ts < 2 ^ 63)
    (ttl now : Int) (k : List Nat) :
    verify D H (gen E H msg iv ts k) ttl now k
      = .ok (if now > ts + ttl ∨ ts > now + maxClockSkew then none else some msg) := by
  have hu : uint64ofInt64 ts < 2 ^ 64 := uint64ofInt64_lt ts
  set u := uint64ofInt64 ts with hu_def
  have hhdlen : (beBytes8 u).length = 8 := by simp [beBytes8]
  have hplen : (pad msg 16).length % 16 = 0 := by rw [pad_length]; omega
  have hpge : 16 ≤ (pad msg 16).length := by rw [pad_length]; omega
  set c := cbcEncrypt (E (cryptBytes k)) iv (pad msg 16) with hc
  have hclen : c.length = (pad msg 16).length :=
    cbcEncrypt_length (E (cryptBytes k)) (fun b hb => hElen (cryptBytes k) b hb) iv _ hiv hplen
  set header := version :: beBytes8 u ++ iv with hheader
  have hheadlen : header.length = 25 := by
    simp [hheader, hhdlen, hiv, version]
  set tag := H (signBytes k) (header ++ c) with htag
  have htaglen : tag.length = 32 := hH32 _ _
  have hgen : gen E H msg iv ts k = header ++ c ++ tag := rfl
  set tok := header ++ c ++ tag with htok
  have htoklen : tok.length = 57 + c.length := by
    simp [htok, hheadlen, htaglen]; omega
  have hhc_len : (header ++ c).length = tok.length - 32 := by
    simp [htok, hheadlen, htaglen]; omega
  have hdrop32 : tok.drop (tok.length - 32) = tag := by
    rw [htok, List.drop_left' hhc_len]
  have htake32 : tok.take (tok.length - 32) = header ++ c := by
    rw [htok, List.take_left' hhc_len]
  have hhead0 : tok.getD 0 0 = version := by
    simp [htok, hheader, List.cons_append]
  rw [hgen, verify]
  rw [if_neg (by push_neg; exact ⟨by omega, by rw [hhead0]⟩)]
  rw [if_neg (by omega)]
  rw [hdrop32, htake32, ← htag]
  rw [if_neg (by simp [constantTimeCompare])]
  have hdrop1 : tok.drop 1 = beBytes8 u ++ (iv ++ (c ++ tag)) := by
    simp [htok, hheader, List.cons_append, List.append_assoc]
  have hts_read : int64ofUint64 (beUint64 (tok.drop 1)) = ts := by
    rw [hdrop1, beUint64_beBytes8_append u hu, hu_def, int64_uint64_roundtrip ts hts1 hts2]
  simp only [hts_read]
  by_cases hwin : now > ts + ttl ∨ ts > now + maxClockSkew
  · rw [if_pos hwin, if_pos hwin]
  · rw [if_neg hwin, if_neg hwin]
    rw [if_neg (by omega)]
    have hdrop25 : tok.drop payOffset = c ++ tag := by
      rw [htok, List.append_assoc]
      exact List.drop_left' hheadlen
    have hpay : (tok.drop payOffset).take (tok.length - 57) = c := by
      rw [hdrop25, htoklen]
      have : 57 + c.length - 57 = c.length := by omega
      rw [this, List.take_left]
    simp only [hpay]
    rw [if_neg (by rw [hclen]; omega)]
    have hdrop9 : (tok.drop 9).take 16 = iv := by
      have h9 : (version :: beBytes8 u).length = 9 := by simp [hhdlen]
      have : tok = (version :: beBytes8 u) ++ (iv ++ (c ++ tag)) := by
        simp [htok, hheader, List.cons_append, List.append_assoc]
      rw [this, List.drop_left' h9, List.take_left' hiv]
    rw [hdrop9, hc,
      cbcDecrypt_cbcEncrypt (E (cryptBytes k)) (D (cryptBytes k))
        (fun b hb hb2 => hED (cryptBytes k) b hb hb2)
        (fun b hb => hElen (cryptBytes k) b hb)
        (fun b hb => hE256 (cryptBytes k) b hb)
        iv (pad msg 16) hiv hiv256 hplen (pad_bytes_lt msg hmsg256),
      unpad_pad]

end Fernet.V1

namespace Fernet

/-- C7: for every message `m` with `len(m) mod 16 == r`, `pad(m, 16)` appends
exactly `16 - r` bytes each holding the value `16 - r` (a full block of 16
when `r = 0`), so it always appends between 1 and 16 bytes, its output length
is a multiple of 16 strictly greater than `len(m)`, and
`unpad(pad(m, 16)) == m`. -/
theorem C7_pad_unpad_roundtrip (m : List Nat) :
    pad m 16 = m ++ List.replicate (16 - m.length % 16) (16 - m.length % 16)
    ∧ 1 ≤ 16 - m.length % 16 ∧ 16 - m.length % 16 ≤ 16
    ∧ (pad m 16).length % 16 = 0
    ∧ m.length < (pad m 16).length
    ∧ unpad (pad m 16) = .ok (some m) := by
  refine ⟨pad_eq m, by omega, by omega, ?_, ?_, unpad_pad m⟩
  · rw [pad_length]; omega
  · rw [pad_length]; omega

/-- C3 counterexample: the claim says `unpad(p)` fails when the last byte is
0, but `unpad([0x00])` returns `[0x00]` unchanged — the loop body never runs,
so nothing is checked or stripped. -/
theorem C3_counterexample :
    unpad [0] = .ok (some [0]) ∧ unpad [0] ≠ .ok none := by
  refine ⟨rfl, ?_⟩
  rw [show unpad [0] = .ok (some [0]) from rfl]
  intro h
  injection h with h'
  exact Option.some_ne_none _ h'

/-- C3 (amended): for every non-empty `p` with last byte `c`, `unpad(p)`
returns nil exactly when `c > 0` and either `p` has fewer than `c` bytes or
one of the last `c` bytes differs from `c`; otherwise it returns `p` with its
final `c` bytes removed — in particular `c = 0` returns `p` unchanged and
values `c > 16` are accepted whenever the last `c` bytes all equal `c`
(the code checks neither `c = 0` nor `c > 16`). -/
theorem C3_unpad_behavior (p : List Nat) (c : Nat) (h : p.getLast? = some c) :
    (unpad p = .ok none ↔ 0 < c ∧ (p.length < c ∨ ∃ b ∈ p.drop (p.length - c), b ≠ c))
    ∧ (c ≤ p.length → (∀ b ∈ p.drop (p.length - c), b = c) →
        unpad p = .ok (some (p.take (p.length - c)))) := by
  have hp : p ≠ [] := by
    intro hh
    rw [hh] at h
    simp at h
  have hlen1 : 1 ≤ p.length := List.length_pos.mpr hp
  simp only [unpad, h]
  constructor
  · by_cases hlt : p.length < c
    · rw [if_pos hlt]
      simp only [true_iff]
      exact ⟨by omega, Or.inl hlt⟩
    · rw [if_neg hlt]
      by_cases hall : ∀ b ∈ p.drop (p.length - c), b = c
      · rw [if_pos (by simpa using hall)]
        constructor
        · intro hcontra
          injection hcontra with h'
          exact absurd h' (Option.some_ne_none _)
        · rintro ⟨hc0, hor⟩
          rcases hor with hor | ⟨b, hb, hbne⟩
          · omega
          · exact absurd (hall b hb) hbne
      · rw [if_neg (by simpa using hall)]
        simp only [true_iff]
        push_neg at hall
        obtain ⟨b, hb, hbne⟩ := hall
        refine ⟨?_, Or.inr ⟨b, hb, hbne⟩⟩
        by_contra hc0
        have hc0' : c = 0 := by omega
        rw [hc0', Nat.sub_zero, List.drop_length] at hb
        simp at hb
  · intro h1 h2
    rw [if_neg (by omega), if_pos (by simpa using h2)]

/-- C3 witness: a concrete well-padded string, `unpad([1, 2, 2]) = [1]`. -/
theorem C3_unpad_behavior_witness : unpad [1, 2, 2] = .ok (some [1]) :=
  (C3_unpad_behavior [1, 2, 2] 2 rfl).2 (by decide) (by decide)

end Fernet

namespace Fernet

/-- C1: for every non-zero 32-byte key `k`, every message `m` (including the
empty one), every 16-byte IV, every generation time `t` representable as an
`int64` and every `ttl ≥ 0`, verifying `gen(m, k, t)`'s token at time `t`
with time-to-live `ttl` under the same key returns exactly `m`. -/
theorem C1_roundtrip (E D H : List Nat → List Nat → List Nat)
    (hED : ∀ ck b, b.length = 16 → (∀ x ∈ b, x < 256) → D ck (E ck b) = b)
    (hElen : ∀ ck b, b.length = 16 → (E ck b).length = 16)
    (hE256 : ∀ ck b, b.length = 16 → ∀ x ∈ E ck b, x < 256)
    (hH32 : ∀ kk m, (H kk m).length = 32)
    (k : List Nat) (hk : k.length = 32) (hknz : k ≠ zeroKey)
    (msg : List Nat) (hmsg256 : ∀ x ∈ msg, x < 256)
    (iv : List Nat) (hiv : iv.length = 16) (hiv256 : ∀ x ∈ iv, x < 256)
    (ts : Int) (hts1 : -(2 ^ 63) ≤ ts) (hts2 : ts < 2 ^ 63)
    (ttl : Int) (httl : 0 ≤ ttl) :
    V1.verify D H (V1.gen E H msg iv ts k) ttl ts k = .ok (some msg) := by
  rw [V1.verify_gen E D H hED hElen hE256 hH32 msg hmsg256 iv hiv hiv256 ts hts1 hts2 ttl ts k]
  rw [if_neg]
  simp only [maxClockSkew]
  omega

/-- C1 witness at a concrete key, message, IV and time, with the identity
block cipher and a constant MAC standing in for the abstract AES/HMAC. -/
theorem C1_roundtrip_witness :
    V1.verify (fun _ b => b) (fun _ _ => List.replicate 32 1)
      (V1.gen (fun _ b => b.map (fun x => x % 256)) (fun _ _ => List.replicate 32 1)
        [104, 105] (List.replicate 16 0) 7 (1 :: List.replicate 31 0))
      60 7 (1 :: List.replicate 31 0) = .ok (some [104, 105]) :=
  C1_roundtrip (fun _ b => b.map (fun x => x % 256)) (fun _ b => b)
    (fun _ _ => List.replicate 32 1)
    (fun _ b _ h256 => by
      conv_rhs => rw [← List.map_id b]
      exact List.map_congr_left (fun x hx => Nat.mod_eq_of_lt (h256 x hx)))
    (fun _ b hb => by simp [hb])
    (fun _ b _ => by
      intro x hx
      obtain ⟨y, _, rfl⟩ := List.mem_map.mp hx
      omega)
    (fun _ _ => by simp)
    (1 :: List.replicate 31 0) (by simp) (by decide)
    [104, 105] (by decide) (List.replicate 16 0) (by simp)
    (by intro x hx; rw [List.eq_of_mem_replicate hx]; omega)
    7 (by omega) (by omega) 60 (by omega)

/-- C2: contrary to the claim, `verify` is not total: the token `[0x80]`
(the base64 text "gA==") passes the version check — the length guard only
requires `len(tok) ≥ 1`, not the 57-byte overhead — and Go then slices
`tok[:len(tok)-sha256.Size]` with a negative bound, a runtime panic rather
than a nil return, for any key, ttl and clock. -/
theorem C2_short_token_panics :
    B64.b64dec [103, 65, 61, 61] = some [128]
    ∧ ∀ (D H : List Nat → List Nat → List Nat) (ttl now : Int) (k : List Nat),
        V1.verify D H [128] ttl now k = .error () := by
  refine ⟨rfl, ?_⟩
  intro D H ttl now k
  unfold V1.verify
  rw [if_neg (by decide), if_pos (by decide)]

/-- C6: for a token generated at time `ts`, verification with `ttl ≥ 0` at
time `now` fails exactly when `now > ts + ttl` (expired) or
`ts > now + maxClockSkew` (implausibly future); in particular it succeeds at
exactly `ts + ttl` and fails at `ts + ttl + 1`. -/
theorem C6_ttl_window (E D H : List Nat → List Nat → List Nat)
    (hED : ∀ ck b, b.length = 16 → (∀ x ∈ b, x < 256) → D ck (E ck b) = b)
    (hElen : ∀ ck b, b.length = 16 → (E ck b).length = 16)
    (hE256 : ∀ ck b, b.length = 16 → ∀ x ∈ E ck b, x < 256)
    (hH32 : ∀ kk m, (H kk m).length = 32)
    (k : List Nat) (msg : List Nat) (hmsg256 : ∀ x ∈ msg, x < 256)
    (iv : List Nat) (hiv : iv.length = 16) (hiv256 : ∀ x ∈ iv, x < 256)
    (ts : Int) (hts1 : -(2 ^ 63) ≤ ts) (hts2 : ts < 2 ^ 63)
    (ttl : Int) (httl : 0 ≤ ttl) (now : Int) :
    (V1.verify D H (V1.gen E H msg iv ts k) ttl now k = .ok none
      ↔ (now > ts + ttl ∨ ts > now + maxClockSkew))
    ∧ V1.verify D H (V1.gen E H msg iv ts k) ttl (ts + ttl) k = .ok (some msg)
    ∧ V1.verify D H (V1.gen E H msg iv ts k) ttl (ts + ttl + 1) k = .ok none := by
  have hmain := fun nw =>
    V1.verify_gen E D H hED hElen hE256 hH32 msg hmsg256 iv hiv hiv256 ts hts1 hts2 ttl nw k
  refine ⟨?_, ?_, ?_⟩
  · rw [hmain now]
    by_cases hc : now > ts + ttl ∨ ts > now + maxClockSkew
    · simp [hc]
    · simp [hc]
  · rw [hmain (ts + ttl), if_neg (by simp only [maxClockSkew]; omega)]
  · rw [hmain (ts + ttl + 1), if_pos (Or.inl (by omega))]

/-- C6 witness at a concrete key, message, IV, time and TTL. -/
theorem C6_ttl_window_witness :
    (V1.verify (fun _ b => b) (fun _ _ => List.replicate 32 1)
      (V1.gen (fun _ b => b.map (fun x => x % 256)) (fun _ _ => List.replicate 32 1)
        [104] (List.replicate 16 0) 100 (2 :: List.replicate 31 0))
      30 161 (2 :: List.replicate 31 0) = .ok none
      ↔ ((161 : Int) > 100 + 30 ∨ (100 : Int) > 161 + maxClockSkew))
    ∧ V1.verify (fun _ b => b) (fun _ _ => List.replicate 32 1)
      (V1.gen (fun _ b => b.map (fun x => x % 256)) (fun _ _ => List.replicate 32 1)
        [104] (List.replicate 16 0) 100 (2 :: List.replicate 31 0))
      30 (100 + 30) (2 :: List.replicate 31 0) = .ok (some [104])
    ∧ V1.verify (fun _ b => b) (fun _ _ => List.replicate 32 1)
      (V1.gen (fun _ b => b.map (fun x => x % 256)) (fun _ _ => List.replicate 32 1)
        [104] (List.replicate 16 0) 100 (2 :: List.replicate 31 0))
      30 (100 + 30 + 1) (2 :: List.replicate 31 0) = .ok none :=
  C6_ttl_window (fun _ b => b.map (fun x => x % 256)) (fun _ b => b)
    (fun _ _ => List.replicate 32 1)
    (fun _ b _ h256 => by
      conv_rhs => rw [← List.map_id b]
      exact List.map_congr_left (fun x hx => Nat.mod_eq_of_lt (h256 x hx)))
    (fun _ b hb => by simp [hb])
    (fun _ b _ => by
      intro x hx
      obtain ⟨y, _, rfl⟩ := List.mem_map.mp hx
      omega)
    (fun _ _ => by simp)
    (2 :: List.replicate 31 0) [104] (by decide) (List.replicate 16 0) (by simp)
    (by intro x hx; rw [List.eq_of_mem_replicate hx]; omega)
    100 (by omega) (by omega) 30 (by omega) 161

end Fernet

namespace B64

theorem b64val_b64chr : ∀ v, v < 64 → b64val (b64chr v) = some v := by decide

theorem b64chr_ne_pad : ∀ v, v < 64 → b64chr v ≠ 61 := by decide

theorem b64chr_ne_pipe : ∀ v, v < 64 → b64chr v ≠ 124 := by decide

theorem b64dec_b64enc : ∀ (l : List Nat), (∀ b ∈ l, b < 256) → b64dec (b64enc l) = some l
  | [] => fun _ => rfl
  | [b0] => fun h => by
    have hb0 : b0 < 256 := h b0 (by simp)
    have h0 : b0 / 4 < 64 := by omega
    have h1 : b0 % 4 * 16 < 64 := by omega
    have e0 : b0 / 4 * 4 + b0 % 4 * 16 / 16 = b0 := by omega
    simp only [b64enc, b64dec, b64val_b64chr _ h0, b64val_b64chr _ h1]
    simp
    omega
  | [b0, b1] => fun h => by
    have hb0 : b0 < 256 := h b0 (by simp)
    have hb1 : b1 < 256 := h b1 (by simp)
    have h0 : b0 / 4 < 64 := by omega
    have h1 : b0 % 4 * 16 + b1 / 16 < 64 := by omega
    have h2 : b1 % 16 * 4 < 64 := by omega
    have e0 : b0 / 4 * 4 + (b0 % 4 * 16 + b1 / 16) / 16 = b0 := by omega
    have e1 : (b0 % 4 * 16 + b1 / 16) % 16 * 16 + b1 % 16 * 4 / 4 = b1 := by omega
    simp only [b64enc, b64dec, b64val_b64chr _ h0, b64val_b64chr _ h1,
      b64val_b64chr _ h2]
    rw [if_neg (b64chr_ne_pad _ h2)]
    simp
    constructor
    · omega
    · omega
  | b0 :: b1 :: b2 :: c :: rest => fun h => by
    have hb0 : b0 < 256 := h b0 (by simp)
    have hb1 : b1 < 256 := h b1 (by simp)
    have hb2 : b2 < 256 := h b2 (by simp)
    have h0 : b0 / 4 < 64 := by omega
    have h1 : b0 % 4 * 16 + b1 / 16 < 64 := by omega
    have h2 : b1 % 16 * 4 + b2 / 64 < 64 := by omega
    have h3 : b2 % 64 < 64 := by omega
    have ih := b64dec_b64enc (c :: rest)
      (fun x hx => h x (List.mem_cons_of_mem _ (List.mem_cons_of_mem _ (List.mem_cons_of_mem _ hx))))
    simp only [b64enc, b64dec, b64val_b64chr _ h0, b64val_b64chr _ h1,
      b64val_b64chr _ h2, b64val_b64chr _ h3]
    rw [if_neg (b64chr_ne_pad _ h2), if_neg (b64chr_ne_pad _ h3)]
    have e0 : b0 / 4 * 4 + (b0 % 4 * 16 + b1 / 16) / 16 = b0 := by omega
    have e1 : (b0 % 4 * 16 + b1 / 16) % 16 * 16 + (b1 % 16 * 4 + b2 / 64) / 4 = b1 := by omega
    have e2 : (b1 % 16 * 4 + b2 / 64) % 4 * 64 + b2 % 64 = b2 := by omega
    rw [ih]
    simp only [Option.map_some', Option.some.injEq, List.cons.injEq]
    exact ⟨e0, e1, e2, trivial⟩
  | [b0, b1, b2] => fun h => by
    have hb0 : b0 < 256 := h b0 (by simp)
    have hb1 : b1 < 256 := h b1 (by simp)
    have hb2 : b2 < 256 := h b2 (by simp)
    have h0 : b0 / 4 < 64 := by omega
    have h1 : b0 % 4 * 16 + b1 / 16 < 64 := by omega
    have h2 : b1 % 16 * 4 + b2 / 64 < 64 := by omega
    have h3 : b2 % 64 < 64 := by omega
    simp only [b64enc, b64dec, b64val_b64chr _ h0, b64val_b64chr _ h1,
      b64val_b64chr _ h2, b64val_b64chr _ h3]
    rw [if_neg (b64chr_ne_pad _ h2), if_neg (b64chr_ne_pad _ h3)]
    have e0 : b0 / 4 * 4 + (b0 % 4 * 16 + b1 / 16) / 16 = b0 := by omega
    have e1 : (b0 % 4 * 16 + b1 / 16) % 16 * 16 + (b1 % 16 * 4 + b2 / 64) / 4 = b1 := by omega
    have e2 : (b1 % 16 * 4 + b2 / 64) % 4 * 64 + b2 % 64 = b2 := by omega
    simp only [b64dec, Option.map_some', Option.some.injEq, List.cons.injEq]
    exact ⟨e0, e1, e2, trivial⟩

end B64

namespace Fernet

theorem cbcEncBlocks_bytes_lt (E : List Nat → List Nat)
    (hElen : ∀ b, b.length = 16 → (E b).length = 16)
    (hE256 : ∀ b, b.length = 16 → ∀ x ∈ E b, x < 256) :
    ∀ (bs : List (List Nat)) (iv : List Nat), iv.length = 16 → (∀ b ∈ bs, b.length = 16) →
      ∀ c ∈ cbcEncBlocks E iv bs, ∀ x ∈ c, x < 256 := by
  intro bs
  induction bs with
  | nil => intro iv _ _ c hc; simp [cbcEncBlocks] at hc
  | cons b bs ih =>
    intro iv hiv hbs c hc
    have hb : b.length = 16 := hbs b (List.mem_cons_self b bs)
    have hxl : (xorBytes iv b).length = 16 := by rw [length_xorBytes, hiv, hb]; rfl
    have hEl : (E (xorBytes iv b)).length = 16 := hElen _ hxl
    simp only [cbcEncBlocks] at hc
    rcases List.mem_cons.mp hc with hc | hc
    · subst hc; exact hE256 _ hxl
    · exact ih (E (xorBytes iv b)) hEl (fun y hy => hbs y (List.mem_cons_of_mem b hy)) c hc

theorem cbcEncrypt_bytes_lt (E : List Nat → List Nat)
    (hElen : ∀ b, b.length = 16 → (E b).length = 16)
    (hE256 : ∀ b, b.length = 16 → ∀ x ∈ E b, x < 256)
    (iv p : List Nat) (hiv : iv.length = 16) (hp : p.length % 16 = 0) :
    ∀ x ∈ cbcEncrypt E iv p, x < 256 := by
  obtain ⟨hb, _⟩ := toBlocks_spec p.length p le_rfl hp
  intro x hx
  unfold cbcEncrypt at hx
  obtain ⟨c, hc, hxc⟩ := List.mem_flatten.mp hx
  exact cbcEncBlocks_bytes_lt E hElen hE256 (toBlocks p) iv hiv hb c hc x hxc

theorem beBytes8_bytes_lt (n : Nat) : ∀ x ∈ beBytes8 n, x < 256 := by
  intro x hx
  simp only [beBytes8, List.mem_cons, List.not_mem_nil, or_false] at hx
  rcases hx with h | h | h | h | h | h | h | h <;> subst h <;> omega

end Fernet

namespace Fernet.V2

/-- Behaviour of the second-revision `verify` on the base64 token produced by
the second-revision `gen` with the same (non-zero) key. -/
theorem verify_genRaw (E D H : List Nat → List Nat → List Nat)
    (hED : ∀ ck b, b.length = 16 → (∀ x ∈ b, x < 256) → D ck (E ck b) = b)
    (hElen : ∀ ck b, b.length = 16 → (E ck b).length = 16)
    (hE256 : ∀ ck b, b.length = 16 → ∀ x ∈ E ck b, x < 256)
    (hH32 : ∀ kk m, (H kk m).length = 32)
    (hH256 : ∀ kk m, ∀ x ∈ H kk m, x < 256)
    (src : List Nat) (hsrc256 : ∀ x ∈ src, x < 256)
    (iv : List Nat) (hiv : iv.length = 16) (hiv256 : ∀ x ∈ iv, x < 256)
    (ts : Int) (hts1 : -(2 ^ 63) ≤ ts) (hts2 : ts < 2 ^ 63)
    (ttl now : Int) (k : List Nat) (hknz : ¬ k = zeroKey) :
    verify D H (B64.b64enc (genRaw E H src iv ts k)) ttl now k
      = .ok (if now > ts + ttl ∨ ts > now + maxClockSkew then none else some src) := by
  have hu : uint64ofInt64 ts < 2 ^ 64 := uint64ofInt64_lt ts
  set u := uint64ofInt64 ts with hu_def
  have hhdlen : (beBytes8 u).length = 8 := by simp [beBytes8]
  have hplen : (pad src 16).length % 16 = 0 := by rw [pad_length]; omega
  set ct := cbcEncrypt (E (cryptBytes k)) iv (pad src 16) with hct
  have hctlen : ct.length = (pad src 16).length :=
    cbcEncrypt_length (E (cryptBytes k)) (fun b hb => hElen (cryptBytes k) b hb) iv _ hiv hplen
  have hct16 : ct.length % 16 = 0 := by rw [hctlen]; exact hplen
  set body := beBytes8 u ++ iv ++ ct with hbody
  set tag := H (signBytes k) body with htag
  have htaglen : tag.length = 32 := hH32 _ _
  have hraw : genRaw E H src iv ts k = tag ++ body := rfl
  have hraw256 : ∀ x ∈ tag ++ body, x < 256 := by
    intro x hx
    rcases List.mem_append.mp hx with hx | hx
    · exact hH256 _ _ x hx
    · rw [hbody] at hx
      rcases List.mem_append.mp hx with hx | hx
      · rcases List.mem_append.mp hx with hx | hx
        · exact beBytes8_bytes_lt u x hx
        · exact hiv256 x hx
      · exact cbcEncrypt_bytes_lt (E (cryptBytes k))
          (fun b hb => hElen (cryptBytes k) b hb)
          (fun b hb => hE256 (cryptBytes k) b hb) iv _ hiv hplen x hx
  have hb64 : B64.b64dec (B64.b64enc (tag ++ body)) = some (tag ++ body) :=
    B64.b64dec_b64enc _ hraw256
  have hbodylen : body.length = 24 + ct.length := by
    simp [hbody, hhdlen, hiv]; omega
  have htoklen : (tag ++ body).length = 56 + ct.length := by
    simp [htaglen, hbodylen]; omega
  have htake32 : (tag ++ body).take 32 = tag := List.take_left' htaglen
  have hdrop32 : (tag ++ body).drop 32 = body := List.drop_left' htaglen
  have hts_read : int64ofUint64 (beUint64 body) = ts := by
    rw [hbody, List.append_assoc, beUint64_beBytes8_append u hu, hu_def,
      int64_uint64_roundtrip ts hts1 hts2]
  have hdrop56 : (tag ++ body).drop 56 = ct := by
    have h56 : (tag ++ (beBytes8 u ++ iv)).length = 56 := by
      simp [htaglen, hhdlen, hiv]
    have : tag ++ body = (tag ++ (beBytes8 u ++ iv)) ++ ct := by
      simp [hbody, List.append_assoc]
    rw [this, List.drop_left' h56]
  have hdrop40 : ((tag ++ body).drop 40).take 16 = iv := by
    have h40 : (tag ++ beBytes8 u).length = 40 := by simp [htaglen, hhdlen]
    have : tag ++ body = (tag ++ beBytes8 u) ++ (iv ++ ct) := by
      simp [hbody, List.append_assoc]
    rw [this, List.drop_left' h40, List.take_left' hiv]
  rw [hraw]
  unfold verify
  rw [if_neg hknz]
  simp only [hb64, Option.getD_some]
  rw [if_neg (by omega), htake32, hdrop32, ← htag]
  rw [if_neg (by simp [constantTimeCompare])]
  simp only [hts_read]
  by_cases hwin : now > ts + ttl ∨ ts > now + maxClockSkew
  · rw [if_pos hwin, if_pos hwin]
  · rw [if_neg hwin, if_neg hwin, hdrop56]
    rw [if_neg (by omega), hdrop40, hct,
      cbcDecrypt_cbcEncrypt (E (cryptBytes k)) (D (cryptBytes k))
        (fun b hb hb2 => hED (cryptBytes k) b hb hb2)
        (fun b hb => hElen (cryptBytes k) b hb)
        (fun b hb => hE256 (cryptBytes k) b hb)
        iv (pad src 16) hiv hiv256 hplen (pad_bytes_lt src hsrc256),
      unpad_pad]

/-- When the stored tag does not match the MAC recomputed under key `k`, the
second-revision `verify` rejects the token. -/
theorem verify_bad_mac (D H : List Nat → List Nat → List Nat) (raw : List Nat)
    (h256 : ∀ x ∈ raw, x < 256) (hlen : 56 ≤ raw.length)
    (k : List Nat) (hknz : ¬ k = zeroKey)
    (hne : H (signBytes k) (raw.drop 32) ≠ raw.take 32) (ttl now : Int) :
    verify D H (B64.b64enc raw) ttl now k = .ok none := by
  have hb64 : B64.b64dec (B64.b64enc raw) = some raw := B64.b64dec_b64enc _ h256
  unfold verify
  rw [if_neg hknz]
  simp only [hb64, Option.getD_some]
  rw [if_neg (by omega)]
  rw [if_pos]
  have : raw.take 32 ≠ H (signBytes k) (raw.drop 32) := fun hcontra => hne hcontra.symm
  simp [constantTimeCompare, this]

end Fernet.V2

namespace Fernet

/-- C5: with the all-zero 32-byte key, token generation always fails with a
configuration error — `"zero key"` from `Key.Generate` and
`"fernet: zero key"` from `gen` — and verification of every token, at every
time and every ttl, returns nil. -/
theorem C5_zero_key (E D H : List Nat → List Nat → List Nat)
    (msg iv tok : List Nat) (ts ttl now : Int) :
    Keys.keyGenerate E H zeroKey msg iv ts = .error "zero key"
    ∧ V2.gen E H msg iv ts zeroKey = .error "fernet: zero key"
    ∧ V2.verify D H tok ttl now zeroKey = .ok none := by
  refine ⟨?_, ?_, ?_⟩
  · rw [Keys.keyGenerate, if_pos rfl]
  · rw [V2.gen, if_pos rfl]
  · rw [V2.verify, if_pos rfl]

theorem verifyWithKeys_none_iff (D H : List Nat → List Nat → List Nat)
    (tok : List Nat) (ttl now : Int) :
    ∀ keys : List (List Nat), verifyWithKeys D H tok ttl now keys = .ok none
      ↔ ∀ kk ∈ keys, V2.verify D H tok ttl now kk = .ok none := by
  intro keys
  induction keys with
  | nil => simp [verifyWithKeys]
  | cons k ks ih =>
    rw [verifyWithKeys]
    cases hv : V2.verify D H tok ttl now k with
    | error e =>
      simp only [hv]
      constructor
      · intro hcontra; cases hcontra
      · intro hall
        have := hall k (List.mem_cons_self k ks)
        rw [hv] at this
        cases this
    | ok o =>
      cases o with
      | some m =>
        simp only [hv]
        constructor
        · intro hcontra
          injection hcontra with h'
          cases h'
        · intro hall
          have := hall k (List.mem_cons_self k ks)
          rw [hv] at this
          injection this with h'
          cases h'
      | none =>
        simp only [hv, ih]
        constructor
        · intro hall kk hkk
          rcases List.mem_cons.mp hkk with hkk | hkk
          · subst hkk; exact hv
          · exact hall kk hkk
        · intro hall kk hkk
          exact hall kk (List.mem_cons_of_mem k hkk)

theorem verifyWithKeys_first (D H : List Nat → List Nat → List Nat)
    (tok : List Nat) (ttl now : Int) :
    ∀ (ks1 : List (List Nat)) (k : List Nat) (ks2 : List (List Nat)) (m : List Nat),
      (∀ kk ∈ ks1, V2.verify D H tok ttl now kk = .ok none) →
      V2.verify D H tok ttl now k = .ok (some m) →
      verifyWithKeys D H tok ttl now (ks1 ++ k :: ks2) = .ok (some m) := by
  intro ks1
  induction ks1 with
  | nil =>
    intro k ks2 m _ hk
    rw [List.nil_append, verifyWithKeys, hk]
  | cons k' ks1 ih =>
    intro k ks2 m hall hk
    rw [List.cons_append, verifyWithKeys, hall k' (List.mem_cons_self k' ks1)]
    exact ih k ks2 m (fun kk hkk => hall kk (List.mem_cons_of_mem k' hkk)) hk

end Fernet

namespace Fernet.V2

theorem genRaw_bytes_lt (E H : List Nat → List Nat → List Nat)
    (hElen : ∀ ck b, b.length = 16 → (E ck b).length = 16)
    (hE256 : ∀ ck b, b.length = 16 → ∀ x ∈ E ck b, x < 256)
    (hH256 : ∀ kk m, ∀ x ∈ H kk m, x < 256)
    (src iv : List Nat) (hiv : iv.length = 16) (hiv256 : ∀ x ∈ iv, x < 256)
    (ts : Int) (k : List Nat) :
    ∀ x ∈ genRaw E H src iv ts k, x < 256 := by
  have hplen : (pad src 16).length % 16 = 0 := by rw [pad_length]; omega
  intro x hx
  rw [genRaw] at hx
  rcases List.mem_append.mp hx with hx | hx
  · exact hH256 _ _ x hx
  · rcases List.mem_append.mp hx with hx | hx
    · rcases List.mem_append.mp hx with hx | hx
      · exact beBytes8_bytes_lt _ x hx
      · exact hiv256 x hx
    · exact cbcEncrypt_bytes_lt (E (cryptBytes k))
        (fun b hb => hElen (cryptBytes k) b hb)
        (fun b hb => hE256 (cryptBytes k) b hb) iv _ hiv hplen x hx

theorem genRaw_length_ge (E H : List Nat → List Nat → List Nat)
    (hElen : ∀ ck b, b.length = 16 → (E ck b).length = 16)
    (hH32 : ∀ kk m, (H kk m).length = 32)
    (src iv : List Nat) (hiv : iv.length = 16) (ts : Int) (k : List Nat) :
    56 ≤ (genRaw E H src iv ts k).length := by
  have hplen : (pad src 16).length % 16 = 0 := by rw [pad_length]; omega
  have hctlen : (cbcEncrypt (E (cryptBytes k)) iv (pad src 16)).length = (pad src 16).length :=
    cbcEncrypt_length (E (cryptBytes k)) (fun b hb => hElen (cryptBytes k) b hb) iv _ hiv hplen
  rw [genRaw]
  simp only [List.length_append, hH32, List.length_cons, beBytes8, hiv, hctlen]
  simp [pad_length]
  omega

end Fernet.V2

namespace Fernet

/-- C8: the key-set verifier (modelled from the spec) tries single-key
verification with each key in order, returns the first non-nil message, and
returns nil exactly when every key fails; in particular a token generated
under `k2` (whose tag does not also pass under `k1`) verifies under
`[k1, k2]` to its message and fails under `[k1]` alone. -/
theorem C8_key_rotation (E D H : List Nat → List Nat → List Nat)
    (hED : ∀ ck b, b.length = 16 → (∀ x ∈ b, x < 256) → D ck (E ck b) = b)
    (hElen : ∀ ck b, b.length = 16 → (E ck b).length = 16)
    (hE256 : ∀ ck b, b.length = 16 → ∀ x ∈ E ck b, x < 256)
    (hH32 : ∀ kk m, (H kk m).length = 32)
    (hH256 : ∀ kk m, ∀ x ∈ H kk m, x < 256)
    (m : List Nat) (hm256 : ∀ x ∈ m, x < 256)
    (iv : List Nat) (hiv : iv.length = 16) (hiv256 : ∀ x ∈ iv, x < 256)
    (ts : Int) (hts1 : -(2 ^ 63) ≤ ts) (hts2 : ts < 2 ^ 63)
    (ttl now : Int) (hwin : ¬(now > ts + ttl ∨ ts > now + maxClockSkew))
    (k1 k2 : List Nat) (h1nz : ¬ k1 = zeroKey) (h2nz : ¬ k2 = zeroKey)
    (hne : H (signBytes k1) ((V2.genRaw E H m iv ts k2).drop 32)
      ≠ (V2.genRaw E H m iv ts k2).take 32) :
    (∀ (tokA : List Nat) (keys : List (List Nat)),
        verifyWithKeys D H tokA ttl now keys = .ok none
          ↔ ∀ kk ∈ keys, V2.verify D H tokA ttl now kk = .ok none)
    ∧ (∀ (tokA : List Nat) (ks1 : List (List Nat)) (k : List Nat)
        (ks2 : List (List Nat)) (mm : List Nat),
        (∀ kk ∈ ks1, V2.verify D H tokA ttl now kk = .ok none) →
        V2.verify D H tokA ttl now k = .ok (some mm) →
        verifyWithKeys D H tokA ttl now (ks1 ++ k :: ks2) = .ok (some mm))
    ∧ verifyWithKeys D H (B64.b64enc (V2.genRaw E H m iv ts k2)) ttl now [k1, k2]
        = .ok (some m)
    ∧ verifyWithKeys D H (B64.b64enc (V2.genRaw E H m iv ts k2)) ttl now [k1]
        = .ok none := by
  have hk1fail : V2.verify D H (B64.b64enc (V2.genRaw E H m iv ts k2)) ttl now k1 = .ok none :=
    V2.verify_bad_mac D H _
      (V2.genRaw_bytes_lt E H hElen hE256 hH256 m iv hiv hiv256 ts k2)
      (V2.genRaw_length_ge E H hElen hH32 m iv hiv ts k2) k1 h1nz hne ttl now
  have hk2ok : V2.verify D H (B64.b64enc (V2.genRaw E H m iv ts k2)) ttl now k2
      = .ok (some m) := by
    rw [V2.verify_genRaw E D H hED hElen hE256 hH32 hH256 m hm256 iv hiv hiv256 ts hts1 hts2
      ttl now k2 h2nz, if_neg hwin]
  refine ⟨fun tokA => verifyWithKeys_none_iff D H tokA ttl now,
    fun tokA => verifyWithKeys_first D H tokA ttl now, ?_, ?_⟩
  · have := verifyWithKeys_first D H (B64.b64enc (V2.genRaw E H m iv ts k2)) ttl now
      [k1] k2 [] m (by intro kk hkk; rcases List.mem_singleton.mp hkk with rfl; exact hk1fail)
      hk2ok
    simpa using this
  · exact (verifyWithKeys_none_iff D H _ ttl now [k1]).mpr
      (by intro kk hkk; rcases List.mem_singleton.mp hkk with rfl; exact hk1fail)

end Fernet

namespace Fernet

set_option maxRecDepth 4000 in
/-- C8 witness: two concrete keys differing in their first byte, a concrete
token generated under the second, and mock cipher and MAC; the token verifies
under `[k1, k2]` and fails under `[k1]`. -/
theorem C8_key_rotation_witness :
    verifyWithKeys (fun _ b => b)
      (fun kk _ => (kk.map (fun x => x % 256) ++ List.replicate 32 0).take 32)
      (B64.b64enc (V2.genRaw (fun _ b => b.map (fun x => x % 256))
        (fun kk _ => (kk.map (fun x => x % 256) ++ List.replicate 32 0).take 32)
        [104] (List.replicate 16 0) 0 (2 :: List.replicate 31 0)))
      60 0 [1 :: List.replicate 31 0, 2 :: List.replicate 31 0] = .ok (some [104])
    ∧ verifyWithKeys (fun _ b => b)
      (fun kk _ => (kk.map (fun x => x % 256) ++ List.replicate 32 0).take 32)
      (B64.b64enc (V2.genRaw (fun _ b => b.map (fun x => x % 256))
        (fun kk _ => (kk.map (fun x => x % 256) ++ List.replicate 32 0).take 32)
        [104] (List.replicate 16 0) 0 (2 :: List.replicate 31 0)))
      60 0 [1 :: List.replicate 31 0] = .ok none :=
  (fun h => ⟨h.2.2.1, h.2.2.2⟩)
    (C8_key_rotation (fun _ b => b.map (fun x => x % 256)) (fun _ b => b)
      (fun kk _ => (kk.map (fun x => x % 256) ++ List.replicate 32 0).take 32)
      (fun _ b _ h256 => by
        conv_rhs => rw [← List.map_id b]
        exact List.map_congr_left (fun x hx => Nat.mod_eq_of_lt (h256 x hx)))
      (fun _ b hb => by simp [hb])
      (fun _ b _ => by
        intro x hx
        obtain ⟨y, _, rfl⟩ := List.mem_map.mp hx
        omega)
      (fun kk _ => by simp)
      (fun kk _ => by
        intro x hx
        have hx' := List.mem_of_mem_take hx
        rcases List.mem_append.mp hx' with h | h
        · obtain ⟨y, _, rfl⟩ := List.mem_map.mp h; omega
        · rw [List.eq_of_mem_replicate h]; omega)
      [104] (by decide) (List.replicate 16 0) (by simp)
      (by intro x hx; rw [List.eq_of_mem_replicate hx]; omega)
      0 (by omega) (by omega) 60 0
      (by simp only [maxClockSkew]; omega)
      (1 :: List.replicate 31 0) (2 :: List.replicate 31 0)
      (by decide) (by decide) (by decide))

end Fernet

namespace Fernet

set_option maxRecDepth 8000 in
/-- C4: the dispatch in `Key.Verify` is reversed with respect to the claim —
a concrete valid modern token (no `'|'` byte anywhere in its base64 text) is
routed to the legacy JSON verifier, which rejects it for want of a `'|'`,
even though the modern binary verifier accepts it and returns the message;
and every token that does contain `'|'` is routed to the modern binary
verifier.  `Key.Verify` therefore returns nil on every input. -/
theorem C4_dispatch_reversed :
    (¬ (124 ∈ B64.b64enc (V2.genRaw (fun _ b => b.map (fun x => x % 256))
      (fun kk _ => (kk.map (fun x => x % 256) ++ List.replicate 32 0).take 32)
      [104] (List.replicate 16 0) 0 (2 :: List.replicate 31 0))))
    ∧ Keys.KeyVerify (fun _ b => b)
      (fun kk _ => (kk.map (fun x => x % 256) ++ List.replicate 32 0).take 32)
      (fun _ => some 0)
      (B64.b64enc (V2.genRaw (fun _ b => b.map (fun x => x % 256))
        (fun kk _ => (kk.map (fun x => x % 256) ++ List.replicate 32 0).take 32)
        [104] (List.replicate 16 0) 0 (2 :: List.replicate 31 0)))
      60 0 (2 :: List.replicate 31 0)
      = Legacy.jsonVerify (fun _ b => b)
        (fun kk _ => (kk.map (fun x => x % 256) ++ List.replicate 32 0).take 32)
        (fun _ => some 0)
        (B64.b64enc (V2.genRaw (fun _ b => b.map (fun x => x % 256))
          (fun kk _ => (kk.map (fun x => x % 256) ++ List.replicate 32 0).take 32)
          [104] (List.replicate 16 0) 0 (2 :: List.replicate 31 0)))
        60 0 (2 :: List.replicate 31 0)
    ∧ Keys.KeyVerify (fun _ b => b)
      (fun kk _ => (kk.map (fun x => x % 256) ++ List.replicate 32 0).take 32)
      (fun _ => some 0)
      (B64.b64enc (V2.genRaw (fun _ b => b.map (fun x => x % 256))
        (fun kk _ => (kk.map (fun x => x % 256) ++ List.replicate 32 0).take 32)
        [104] (List.replicate 16 0) 0 (2 :: List.replicate 31 0)))
      60 0 (2 :: List.replicate 31 0) = .ok none
    ∧ V2.verify (fun _ b => b)
      (fun kk _ => (kk.map (fun x => x % 256) ++ List.replicate 32 0).take 32)
      (B64.b64enc (V2.genRaw (fun _ b => b.map (fun x => x % 256))
        (fun kk _ => (kk.map (fun x => x % 256) ++ List.replicate 32 0).take 32)
        [104] (List.replicate 16 0) 0 (2 :: List.replicate 31 0)))
      60 0 (2 :: List.replicate 31 0) = .ok (some [104])
    ∧ (∀ (D H : List Nat → List Nat → List Nat) (P : List Nat → Option Int)
        (t : List Nat), 124 ∈ t → ∀ (ttl now : Int) (kk : List Nat),
          Keys.KeyVerify D H P t ttl now kk = V2.verify D H t ttl now kk) := by
  refine ⟨by decide, ?_, rfl, rfl, ?_⟩
  · rw [Keys.KeyVerify, if_pos (by decide)]
  · intro D H P t ht ttl now kk
    rw [Keys.KeyVerify, if_neg (fun hcontra => hcontra ht)]

end Fernet

namespace B64

theorem b64dec_length : ∀ (s b : List Nat), b64dec s = some b →
    s.length % 4 = 0 ∧ b.length ≤ 3 * (s.length / 4) ∧ 3 * (s.length / 4) ≤ b.length + 2
  | [], b => by
    intro h
    simp only [b64dec, Option.some.injEq] at h
    subst h
    simp
  | [c0], b => by intro h; simp [b64dec] at h
  | [c0, c1], b => by intro h; simp [b64dec] at h
  | [c0, c1, c2], b => by intro h; simp [b64dec] at h
  | c0 :: c1 :: c2 :: c3 :: rest, b => by
    intro h
    simp only [b64dec] at h
    cases hv0 : b64val c0 with
    | none => rw [hv0] at h; simp at h
    | some v0 =>
      cases hv1 : b64val c1 with
      | none => rw [hv0, hv1] at h; simp at h
      | some v1 =>
        rw [hv0, hv1] at h
        simp only at h
        by_cases hc2 : c2 = 61
        · rw [if_pos hc2] at h
          by_cases hr : c3 = 61 ∧ rest = []
          · rw [if_pos hr] at h
            injection h with h'
            subst h'
            obtain ⟨_, hrest⟩ := hr
            subst hrest
            simp
          · rw [if_neg hr] at h; cases h
        · rw [if_neg hc2] at h
          cases hv2 : b64val c2 with
          | none => rw [hv2] at h; cases h
          | some v2 =>
            rw [hv2] at h
            simp only at h
            by_cases hc3 : c3 = 61
            · rw [if_pos hc3] at h
              by_cases hr : rest = []
              · rw [if_pos hr] at h
                injection h with h'
                subst h'
                subst hr
                simp
              · rw [if_neg hr] at h; cases h
            · rw [if_neg hc3] at h
              cases hv3 : b64val c3 with
              | none => rw [hv3] at h; cases h
              | some v3 =>
                rw [hv3] at h
                simp only at h
                obtain ⟨bs, hbs, hb⟩ := Option.map_eq_some'.mp h
                obtain ⟨ih1, ih2, ih3⟩ := b64dec_length rest bs hbs
                subst hb
                refine ⟨?_, ?_, ?_⟩ <;> simp only [List.length_cons] <;> omega

end B64

namespace Fernet.Keys

/-- C9: `DecodeKey(s)` succeeds exactly when `s` is URL-safe base64 text
decoding to exactly 32 bytes; a text that decodes to any other number of
bytes gets the key-length error, malformed text gets the base64 error when
its length is consistent with a 32-byte key (`DecodedLen(len(s)) == 33`,
Go's a-priori decoded length) and the key-length error otherwise; and for
every 32-byte key `k`, `DecodeKey(Encode(k))` succeeds and returns `k`. -/
theorem C9_decode_encode_key (s b k : List Nat) (hk : k.length = 32)
    (hk256 : ∀ x ∈ k, x < 256) :
    (DecodeKey s = .ok b ↔ (B64.b64dec s = some b ∧ b.length = 32))
    ∧ (B64.b64dec s = some b → b.length ≠ 32 → DecodeKey s = .error (.keyLen s.length))
    ∧ (B64.b64dec s = none → DecodeKey s
        = .error (if s.length / 4 * 3 = 33 then KeyError.base64 else .keyLen s.length))
    ∧ DecodeKey (encode k) = .ok k := by
  have main : ∀ (t b' : List Nat), B64.b64dec t = some b' → b'.length = 32 →
      DecodeKey t = .ok b' := by
    intro t b' hdec hlen
    obtain ⟨hm4, hle, hge⟩ := B64.b64dec_length t b' hdec
    have hq : t.length / 4 = 11 := by omega
    rw [DecodeKey, if_neg (by omega)]
    rw [hdec]
    simp only [hlen]
    rw [if_neg (by omega)]
  refine ⟨⟨?_, ?_⟩, ?_, ?_, ?_⟩
  · intro h
    rw [DecodeKey] at h
    by_cases hlen : s.length / 4 * 3 ≠ 33
    · rw [if_pos hlen] at h; cases h
    · rw [if_neg hlen] at h
      cases hdec : B64.b64dec s with
      | none => rw [hdec] at h; cases h
      | some b' =>
        rw [hdec] at h
        simp only at h
        by_cases hb' : b'.length ≠ 32
        · rw [if_pos hb'] at h; cases h
        · rw [if_neg hb'] at h
          injection h with h'
          subst h'
          exact ⟨rfl, by omega⟩
  · rintro ⟨hdec, hlen⟩
    exact main s b hdec hlen
  · intro hdec hlen
    rw [DecodeKey]
    by_cases hl : s.length / 4 * 3 ≠ 33
    · rw [if_pos hl]
    · rw [if_neg hl, hdec]
      simp only [if_pos hlen]
  · intro hdec
    rw [DecodeKey]
    by_cases hl : s.length / 4 * 3 = 33
    · rw [if_neg (by omega), hdec, if_pos hl]
    · rw [if_pos (by omega), if_neg hl]
  · exact main (encode k) k (B64.b64dec_b64enc k hk256) hk

/-- C9 witness: the 32-byte key `0x00 0x01 … 0x1f` encodes and decodes back
to itself. -/
theorem C9_decode_encode_key_witness :
    DecodeKey (encode (List.range 32)) = .ok (List.range 32) :=
  (C9_decode_encode_key [] [] (List.range 32) (by decide) (by decide)).2.2.2

end Fernet.Keys

namespace B64

theorem b64enc_length : ∀ (l : List Nat), (b64enc l).length = (l.length + 2) / 3 * 4
  | [] => rfl
  | [b0] => by simp [b64enc]
  | [b0, b1] => by simp [b64enc]
  | b0 :: b1 :: b2 :: rest => by
    have ih := b64enc_length rest
    simp only [b64enc, List.length_cons, ih]
    omega

end B64

namespace Fernet.Legacy

/-- C10 (amended): the legacy JSON verifier derives all of its cryptographic
material from the URL-safe base64 text of the key — `jsonKeys` yields the
first 22 encoded characters as the signing material and the next 16 encoded
characters as the AES decryption key — and, apart from the initial all-zero
key rejection (which does read the raw key bytes), `jsonVerify` uses the key
only through that derivation; in its MAC check the token fields are the HMAC
key and the derived signing material is the HMAC message. -/
theorem C10_json_keys_derivation (k : List Nat) (hk : k.length = 32)
    (D H : List Nat → List Nat → List Nat) (P : List Nat → Option Int)
    (tok : List Nat) (ttl now : Int) :
    jsonKeys k = ((B64.b64enc k).take 22, ((B64.b64enc k).drop 22).take 16)
    ∧ jsonVerify D H P tok ttl now k
        = (if k = zeroKey then .ok none
           else jsonVerifyDerived D H P ((B64.b64enc k).take 22)
             (((B64.b64enc k).drop 22).take 16) tok ttl now)
    ∧ (∀ (sk ck tok2 : List Nat) (msg : List Nat),
        jsonVerifyDerived D H P sk ck tok2 ttl now = .ok (some msg) →
        ∃ i, lastPipe tok2 = some i
          ∧ hexDecode (tok2.drop (i + 1)) = some (H (tok2.take i) sk)) := by
  have hlen : (B64.b64enc k).length = 44 := by
    rw [B64.b64enc_length, hk]
  have hkeys : jsonKeys k = ((B64.b64enc k).take 22, ((B64.b64enc k).drop 22).take 16) := by
    rw [jsonKeys]
    simp only [hlen]
  refine ⟨hkeys, ?_, ?_⟩
  · rw [jsonVerify, hkeys]
  · intro sk ck tok2 msg h
    rw [jsonVerifyDerived] at h
    cases hlp : lastPipe tok2 with
    | none => rw [hlp] at h; cases h
    | some i =>
      rw [hlp] at h
      simp only at h
      refine ⟨i, rfl, ?_⟩
      by_cases h1 : (tok2.drop (i + 1)).length % 2 = 1
      · rw [if_pos h1] at h; cases h
      · rw [if_neg h1] at h
        by_cases h2 : 64 < (tok2.drop (i + 1)).length
            ∧ ((tok2.drop (i + 1)).take 66).all (fun c => hexVal c ≠ none)
        · rw [if_pos h2] at h; cases h
        · rw [if_neg h2] at h
          cases hhx : hexDecode (tok2.drop (i + 1)) with
          | none => rw [hhx] at h; cases h
          | some hm =>
            rw [hhx] at h
            simp only at h
            by_cases h3 : hm.length ≠ 32
            · rw [if_pos h3] at h; cases h
            · rw [if_neg h3] at h
              by_cases h4 : constantTimeCompare hm (H (tok2.take i) sk) ≠ 1
              · rw [if_pos h4] at h; cases h
              · rw [if_neg h4] at h
                have heq : hm = H (tok2.take i) sk := by
                  by_contra hne
                  exact h4 (by simp [constantTimeCompare, hne])
                rw [heq]

end Fernet.Legacy

namespace Fernet.Legacy

/-- C10 witness: the split of a concrete 32-byte key's encoding into its
22-character signing material and 16-character encryption key. -/
theorem C10_json_keys_derivation_witness :
    jsonKeys (List.range 32)
      = ((B64.b64enc (List.range 32)).take 22,
         ((B64.b64enc (List.range 32)).drop 22).take 16) :=
  (C10_json_keys_derivation (List.range 32) (by decide)
    (fun _ b => b) (fun _ _ => List.replicate 32 0) (fun _ => some 0) [] 0 0).1

set_option maxRecDepth 8000 in
/-- C10 counterexample: `jsonVerify` does read the raw key bytes — its
all-zero-key guard distinguishes the zero key from a key with the same
`jsonKeys` derivation (the base64 text of the first 28½ bytes) that differs
only in the last raw byte: on a concrete legacy token the former is rejected
by the guard while the latter verifies. -/
theorem C10_counterexample :
    jsonKeys zeroKey = jsonKeys (List.replicate 31 0 ++ [1])
    ∧ jsonVerify (fun _ b => b) (fun _ _ => List.replicate 32 0) (fun _ => some 0)
        (B64.b64enc (List.replicate 16 16) ++ [124] ++ B64.b64enc (List.replicate 16 0)
          ++ [124] ++ List.replicate 64 48) 0 0 zeroKey = .ok none
    ∧ jsonVerify (fun _ b => b) (fun _ _ => List.replicate 32 0) (fun _ => some 0)
        (B64.b64enc (List.replicate 16 16) ++ [124] ++ B64.b64enc (List.replicate 16 0)
          ++ [124] ++ List.replicate 64 48) 0 0 (List.replicate 31 0 ++ [1])
        = .ok (some []) :=
  ⟨by decide, rfl, rfl⟩

end Fernet.Legacy
